import Mathlib

/-!
Shallow embedding of the XD BitTorrent client core (wire codec, metainfo,
filesystem piece store, swarm peer admission and rarest-piece selection),
with theorems checking the natural-language specification against it.

Bytes are modelled as natural numbers, byte buffers as lists, machine
integers as naturals reduced modulo 2^32 / 2^64 exactly where the Go code
performs fixed-width arithmetic.  SHA-1 and bencoding are external
primitives and appear as function parameters.
-/

set_option linter.unusedVariables false

namespace XD

/-- 2^32, the modulus of Go's uint32 arithmetic. -/
def pow32 : Nat := 4294967296

/-- 2^64, the modulus of Go's uint64 arithmetic. -/
def pow64 : Nat := 18446744073709551616

/-- Wrapping uint64 subtraction: (a - b) mod 2^64 for a, b < 2^64. -/
def usub64 (a b : Nat) : Nat := (a % pow64 + pow64 - b % pow64) % pow64

/-- binary.BigEndian.PutUint32: serialise a 32-bit value into 4 big-endian bytes. -/
def putUint32 (x : Nat) : List Nat :=
  [x / 16777216 % 256, x / 65536 % 256, x / 256 % 256, x % 256]

/-- binary.BigEndian.Uint32: read a 32-bit value from the first 4 bytes of a buffer. -/
def getUint32 (b : List Nat) : Nat :=
  b.getD 0 0 * 16777216 + b.getD 1 0 * 65536 + b.getD 2 0 * 256 + b.getD 3 0

/-! ## Wire codec (lib/common/wire_message.go) -/

/-- Request is the message id for a piece request message. -/
def Request : Nat := 6

/-- Piece is the message id for the response to a Request message. -/
def Piece : Nat := 7

/-- Invalid is the special message id for invalid messages. -/
def Invalid : Nat := 255

/-- WireMessage is a serializable bittorrent wire message (a raw byte buffer:
4-byte big-endian length, message id byte, payload). -/
abbrev WireMessage := List Nat

/-- NewWireMessage creates a new wire message with an id and a body. -/
def NewWireMessage (id : Nat) (body : List Nat) : WireMessage :=
  putUint32 (body.length + 1) ++ id :: body

/-- Len returns the length of the body of this message (the 4-byte big-endian value at the front). -/
def wireLen (msg : WireMessage) : Nat := getUint32 msg

/-- Payload returns the body of the message: everything after the length word
and id byte when the length is positive, nil otherwise. -/
def Payload (msg : WireMessage) : List Nat :=
  if wireLen msg > 0 then msg.drop 5 else []

/-- MessageID returns the id byte of this message, Invalid when the message is too short. -/
def MessageID (msg : WireMessage) : Nat :=
  if msg.length > 4 then msg.getD 4 0 else Invalid

/-- PieceRequest is a request for a block of a piece. -/
structure PieceRequest where
  Index : Nat
  Begin : Nat
  Length : Nat
deriving DecidableEq, Repr

/-- PieceData is a block of data of a piece at some offset. -/
structure PieceData where
  Index : Nat
  Begin : Nat
  Data : List Nat
deriving DecidableEq, Repr

/-- PieceRequest.ToWireMessage: serialise to a Request wire message with a
12-byte body of index, begin, length. -/
def PieceRequest.ToWireMessage (req : PieceRequest) : WireMessage :=
  NewWireMessage Request (putUint32 req.Index ++ putUint32 req.Begin ++ putUint32 req.Length)

/-- PieceData.ToWireMessage: serialise to a Piece wire message whose body is
index, begin, then the data bytes. -/
def PieceData.ToWireMessage (p : PieceData) : WireMessage :=
  NewWireMessage Piece (putUint32 p.Index ++ putUint32 p.Begin ++ p.Data)

/-- GetPieceRequest parses a piece request from a wire message; the zero value
is returned when the id is not Request or the payload is not 12 bytes. -/
def GetPieceRequest (msg : WireMessage) : PieceRequest :=
  if MessageID msg = Request then
    let data := Payload msg
    if data.length = 12 then
      { Index := getUint32 data
        Begin := getUint32 (data.drop 4)
        Length := getUint32 (data.drop 8) }
    else ⟨0, 0, 0⟩
  else ⟨0, 0, 0⟩

/-- GetPieceData parses a PieceData from a wire message; the zero value is
returned when the id is not Piece or the payload is 8 bytes or fewer. -/
def GetPieceData (msg : WireMessage) : PieceData :=
  if MessageID msg = Piece then
    let data := Payload msg
    if data.length > 8 then
      { Index := getUint32 data
        Begin := getUint32 (data.drop 4)
        Data := data.drop 8 }
    else ⟨0, 0, []⟩
  else ⟨0, 0, []⟩

/-- MaxWireMessageSize is the hard per-message size limit (32 KiB). -/
def MaxWireMessageSize : Nat := 32768

/-- Possible terminations of the wire-message read loop. -/
inductive ReadEnd where
  /-- the loop ended with a read error (stream exhausted mid-frame or at a header) -/
  | readErr
  /-- the loop panicked slicing the fixed 32 KiB + 4 buffer with a larger length -/
  | sliceOutOfRange
deriving DecidableEq, Repr

/-- One pass of ReadWireMessages over a finite in-memory stream, with explicit
fuel (the loop consumes at least 4 bytes per iteration, so fuel = length + 1
never runs out).  Returns the list of messages dispatched to the handler and
how the loop ended.  Mirrors the source exactly: a frame whose length l
satisfies 0 < l < MaxWireMessageSize is *drained* (the branch that logs
"message too big, discarding"), and otherwise the body slice msg[4 : 4+l] of
the 32 KiB + 4 buffer is read and dispatched, which is out of range as soon
as l exceeds MaxWireMessageSize. -/
def readWireLoop : Nat → List Nat → List WireMessage × ReadEnd
  | 0, _ => ([], ReadEnd.readErr)
  | fuel + 1, stream =>
    if stream.length < 4 then ([], ReadEnd.readErr)
    else
      let l := getUint32 (stream.take 4)
      let rest := stream.drop 4
      if l = 0 then readWireLoop fuel rest
      else if l < MaxWireMessageSize then
        if rest.length < l then ([], ReadEnd.readErr)
        else readWireLoop fuel (rest.drop l)
      else if l ≤ MaxWireMessageSize then
        if rest.length < l then ([], ReadEnd.readErr)
        else
          let res := readWireLoop fuel (rest.drop l)
          (stream.take (4 + l) :: res.1, res.2)
      else ([], ReadEnd.sliceOutOfRange)

/-- ReadWireMessages: read framed wire messages from a finite stream and
collect those dispatched to the per-message handler. -/
def ReadWireMessages (stream : List Nat) : List WireMessage × ReadEnd :=
  readWireLoop (stream.length + 1) stream

/-! ## Bitfield (lib/bittorrent/bitfield.go, not among the provided sources) -/

/-- Modelled from the spec: the bittorrent.Bitfield implementation is not
among the provided sources (only its callers are), so per §3 and §4.2 of the
specification it is modelled at the logical bit level: a bit vector of length
N (number of pieces), bit i set meaning piece i verified and on disk, with
set/has/count-set operations.  The packed byte representation is a wire and
persistence detail the claims do not touch. -/
structure Bitfield where
  bits : List Bool
deriving DecidableEq, Repr

/-- NewBitfield creates a bitfield of a given bit length with no bit set. -/
def NewBitfield (n : Nat) : Bitfield := ⟨List.replicate n false⟩

/-- Has: test bit idx (false when out of range). -/
def Bitfield.Has (bf : Bitfield) (idx : Nat) : Bool := bf.bits.getD idx false

/-- Set: set bit idx (out of range: no change). -/
def Bitfield.Set (bf : Bitfield) (idx : Nat) : Bitfield := ⟨bf.bits.set idx true⟩

/-- CountSet: number of set bits. -/
def Bitfield.CountSet (bf : Bitfield) : Nat := bf.bits.count true

/-! ## Metainfo (lib/metainfo/metainfo.go) -/

/-- FileInfo: length and relative path of one content file. -/
structure FileInfo where
  Length : Nat
  Path : List String
  Sum : List Nat
deriving DecidableEq, Repr

/-- Info: the info section of a torrent file. -/
structure Info where
  /-- length of pieces in bytes (uint32) -/
  PieceLength : Nat
  /-- concatenated 20-byte piece hashes -/
  Pieces : List Nat
  /-- name of root file -/
  Path : String
  /-- file metadata (multi-file mode) -/
  Files : List FileInfo
  /-- private torrent flag -/
  Private : Option Nat
  /-- length of the file in single file mode (uint64; 0 when absent) -/
  Length : Nat
  /-- md5sum -/
  Sum : List Nat
  /-- metainfo version (v2), absent on v1-only manifests -/
  MetaVersion : Option Nat
deriving DecidableEq, Repr

/-- NumPieces: number of pieces, each hash being 20 bytes (uint32 result). -/
def Info.NumPieces (i : Info) : Nat := i.Pieces.length / 20 % pow32

/-- GetFiles: file infos of this info section (a synthetic single entry in
single-file mode, the declared file list otherwise). -/
def Info.GetFiles (i : Info) : List FileInfo :=
  if i.Length > 0 then [{ Length := i.Length, Path := [i.Path], Sum := i.Sum }]
  else i.Files

/-- IsV1Only: true when the info section has no meta version field at all. -/
def Info.IsV1Only (i : Info) : Bool := i.MetaVersion = none

/-- CheckPiece: a piece is valid when its index is in bounds and the SHA-1 of
its data equals the 20-byte manifest hash at index*20.  SHA-1 itself is an
external primitive, passed as the function sha1. -/
def Info.CheckPiece (sha1 : List Nat → List Nat) (i : Info) (p : PieceData) : Bool :=
  if i.NumPieces > p.Index then
    sha1 p.Data = (i.Pieces.drop (p.Index * 20)).take 20
  else false

/-- A torrent file (manifest). -/
structure TorrentFile where
  Info : Info
  Announce : String
  AnnounceList : List (List String)
  Created : Int
  Comment : List Nat
  CreatedBy : List Nat
  Encoding : List Nat
deriving DecidableEq, Repr

/-- IsSingleFile: true when this torrent is for a single file. -/
def TorrentFile.IsSingleFile (tf : TorrentFile) : Bool := tf.Info.Length > 0

/-- TotalSize: total size of the files of the torrent, accumulated in uint64,
i.e. the declared single-file length or the wrapping sum of the file list. -/
def TorrentFile.TotalSize (tf : TorrentFile) : Nat :=
  if tf.IsSingleFile then tf.Info.Length
  else tf.Info.Files.foldl (fun acc f => (acc + f.Length) % pow64) 0

/-- LengthOfPiece: the piece length for every piece but the last, and for the
last piece (index+1 = NumPieces in uint32 arithmetic) the uint64 expression
PieceLength - (NumPieces*PieceLength - TotalSize) truncated to uint32. -/
def TorrentFile.LengthOfPiece (tf : TorrentFile) (idx : Nat) : Nat :=
  let i := tf.Info
  let np := i.NumPieces
  if np = (idx + 1) % pow32 then
    let sz := tf.TotalSize
    let l64 := usub64 i.PieceLength (usub64 (np * i.PieceLength) sz)
    l64 % pow32
  else i.PieceLength

/-- TorrentName: the name of the torrent (root path of the info section). -/
def TorrentFile.TorrentName (tf : TorrentFile) : String := tf.Info.Path

/-- A 20-byte v1 infohash or the (stubbed) v2 infohash. -/
inductive Infohash where
  | v1 (h : List Nat)
  | v2 (h : List Nat)
deriving DecidableEq, Repr

/-- InfohashV1: the SHA-1 of the bencoded info section; hashing the bencoding
is an external primitive, passed as sha1bencode. -/
def TorrentFile.InfohashV1 (sha1bencode : XD.Info → List Nat) (tf : TorrentFile) : Infohash :=
  Infohash.v1 (sha1bencode tf.Info)

/-- InfohashV2 is an empty stub: it returns the zero value of the v2 infohash
type. -/
def TorrentFile.InfohashV2 (tf : TorrentFile) : Infohash :=
  Infohash.v2 (List.replicate 32 0)

/-- Infohash: v1 SHA-1 infohash for v1-only manifests, the (zero) v2 infohash
for every manifest that carries a meta version field. -/
def TorrentFile.Infohash (sha1bencode : XD.Info → List Nat) (tf : TorrentFile) : Infohash :=
  if tf.Info.IsV1Only then tf.InfohashV1 sha1bencode
  else tf.InfohashV2

/-! ## Filesystem piece store (lib/storage/fs.go)

The content of an open torrent is a list of files, each file a byte list
preallocated to its declared length (Allocate runs before any access).  A
successful in-bounds read or write on one file behaves as on a byte array;
that is the only filesystem behaviour the linear-stream walk relies on. -/

/-- On-disk content of a torrent: one byte list per file, in file-list order. -/
abbrev FsFiles := List (List Nat)

/-- Total declared content length: the sum of the file lengths. -/
def totalLen (files : FsFiles) : Nat := (files.map List.length).sum

/-- In-bounds write of a buffer into one file at an offset. -/
def fileWriteAt (content p : List Nat) (off : Nat) : List Nat :=
  content.take off ++ p ++ content.drop (off + p.length)

/-- WriteAt: walk the file list left to right; skip whole files before the
offset, then clip the buffer to each file's remaining bytes, write the clip,
and continue into the next file at offset 0 until the buffer is exhausted. -/
def WriteAt : FsFiles → List Nat → Nat → FsFiles
  | [], _, _ => []
  | c :: restf, p, off =>
    if off ≥ c.length then c :: WriteAt restf p (off - c.length)
    else
      let n1 := min p.length (c.length - off)
      let c2 := fileWriteAt c (p.take n1) off
      if p.length - n1 = 0 then c2 :: restf
      else c2 :: WriteAt restf (p.drop n1) 0

/-- readFileAt: limit the read to within the expected bounds of this file
(clip the buffer to length - off), then read the clipped buffer fully. -/
def readFileAt (c : List Nat) (blen off : Nat) : List Nat :=
  (c.drop off).take (min blen (c.length - off))

/-- ReadAt: walk the file list left to right reading blen bytes starting at
the linear offset off; returns the bytes obtained and true when the walk ran
off the end of the file list with bytes still wanted (err = io.EOF). -/
def ReadAt : FsFiles → Nat → Nat → List Nat × Bool
  | [], _, _ => ([], true)
  | c :: restf, blen, off =>
    if off < c.length then
      let n1 := min blen (c.length - off)
      let bytes := readFileAt c blen off
      if blen - n1 = 0 then (bytes, false)
      else
        let res := ReadAt restf (blen - n1) 0
        (bytes ++ res.1, res.2)
    else ReadAt restf blen (off - c.length)

/-- VisitPiece: read Length bytes at Begin + PieceLength*Index and hand the
piece to the visitor; none when the read errored (the visitor never runs). -/
def VisitPiece (files : FsFiles) (tf : TorrentFile) (r : PieceRequest) : Option PieceData :=
  let res := ReadAt files r.Length (r.Begin + tf.Info.PieceLength * r.Index)
  if res.2 then none
  else some { Index := r.Index, Begin := r.Begin, Data := res.1 }

/-- checkPiece: hash-check a piece against the manifest. -/
def checkPiece (sha1 : List Nat → List Nat) (tf : TorrentFile) (pc : PieceData) : Bool :=
  tf.Info.CheckPiece sha1 pc

/-- PutPiece: hash-check the piece; when it checks out, write its data at
PieceLength*Index; only when the write also succeeds, set the piece's bit.
The filesystem write is the parameter writeRes (none = write error; the
content state after a failed write is whatever the filesystem left behind,
which the bitfield never observes). -/
def PutPiece (writeRes : FsFiles → List Nat → Nat → Option FsFiles)
    (sha1 : List Nat → List Nat) (files : FsFiles) (tf : TorrentFile)
    (bf : Bitfield) (pc : PieceData) : FsFiles × Bitfield × Bool :=
  if checkPiece sha1 tf pc then
    match writeRes files pc.Data (tf.Info.PieceLength * pc.Index) with
    | some files2 => (files2, bf.Set pc.Index, true)
    | none => (files, bf, false)
  else (files, bf, false)

/-- verifyBitfield: for every index below NumPieces that the given bitfield
claims, visit the piece on disk and set the index in a fresh bitfield exactly
when the hash check passes. -/
def verifyBitfield (sha1 : List Nat → List Nat) (files : FsFiles)
    (tf : TorrentFile) (bf : Bitfield) : Bitfield :=
  (List.range tf.Info.NumPieces).foldl
    (fun has idx =>
      if bf.Has idx then
        match VisitPiece files tf { Index := idx, Begin := 0, Length := tf.LengthOfPiece idx } with
        | some pc => if checkPiece sha1 tf pc then has.Set idx else has
        | none => has
      else has)
    (NewBitfield tf.Info.NumPieces)

/-- VerifyAll: with a stored bitfield, re-verify every claimed piece and make
the result the in-memory bitfield; with no stored bitfield, check all pieces
(the inverted fresh bitfield). -/
def VerifyAll (sha1 : List Nat → List Nat) (files : FsFiles) (tf : TorrentFile)
    (stored : Option Bitfield) (fresh : Bool) : Bitfield :=
  match stored with
  | some check => verifyBitfield sha1 files tf check
  | none => verifyBitfield sha1 files tf ⟨List.replicate tf.Info.NumPieces true⟩

/-- DownloadRemaining: TotalSize minus CountSet * PieceLength, all in
wrapping uint64 arithmetic. -/
def DownloadRemaining (bf : Bitfield) (tf : TorrentFile) : Nat :=
  usub64 tf.TotalSize (bf.CountSet % pow64 * (tf.Info.PieceLength % pow64) % pow64)

/-! ## Swarm: rarest-piece selection (lib/bittorrent/swarm/torrent.go) -/

/-- Number of peer bitfields that have piece idx. -/
def availCount (peers : List Bitfield) (idx : Nat) : Nat :=
  (peers.filter (fun b => b.Has idx)).length

/-- Modelled from the spec: bittorrent.Bitfield.FindRarest is not among the
provided sources (only its caller getRarestPiece is), so per §4.2 of the
specification: among pieces that are set in the remote bitfield and not
rejected by the exclude predicate, pick the index with the smallest count
across the peer bitfields, ties broken by lowest index; none when no
candidate exists. -/
def Bitfield.FindRarest (remote : Bitfield) (peers : List Bitfield)
    (excl : Nat → Bool) : Option Nat :=
  (List.range remote.bits.length).foldl
    (fun best idx =>
      if remote.Has idx && !excl idx then
        match best with
        | none => some idx
        | some j => if availCount peers idx < availCount peers j then some idx else some j
      else best)
    none

/-- getRarestPiece: ask FindRarest for a piece the remote has, excluding
pieces our own bitfield has and pieces in the exclude list. -/
def getRarestPiece (localBf : Bitfield) (peers : List Bitfield)
    (remote : Bitfield) (exclude : List Nat) : Option Nat :=
  remote.FindRarest peers (fun idx => localBf.Has idx || exclude.contains idx)

/-! ## Swarm: peer admission (lib/bittorrent/swarm/torrent.go)

Sequential model of addPeers / PersistPeer / DialPeer: each spawned
PersistPeer runs to completion before the next peer-list entry is processed
(the interleaving of the spec's duplicate-address scenario).  The connection
maps are modelled by their key sets, and every dial attempt is appended to a
trace; dial success (connect + matching handshake, after which the peer is
inserted into the outbound map) is the oracle dialOk. -/

/-- Sequential swarm-side state: inbound and outbound connection keys plus
the trace of addresses outbound dials were attempted to. -/
structure SwarmState where
  ibconns : List String
  obconns : List String
  dials : List String
deriving DecidableEq, Repr

/-- DialPeer: no-op when an outbound connection already exists; otherwise
attempt the dial (recorded in the trace) and, on success, add the peer to
the outbound map.  Returns the state and whether the call returned nil. -/
def DialPeer (dialOk : String → Bool) (st : SwarmState) (a : String) : SwarmState × Bool :=
  if a ∈ st.obconns then (st, true)
  else
    let st2 : SwarmState := { st with dials := st.dials ++ [a] }
    if dialOk a then ({ st2 with obconns := st2.obconns ++ [a] }, true)
    else (st2, false)

/-- The PersistPeer retry loop with triesLeft as fuel: return when an inbound
connection to the address exists; otherwise dial, returning on success and
retrying while tries remain.  When an outbound connection already exists the
goroutine sleeps without ever dialing; in this sequential model no other
actor can change that, so the branch returns. -/
def persistLoop (dialOk : String → Bool) (a : String) : Nat → SwarmState → SwarmState
  | 0, st => st
  | triesLeft + 1, st =>
    if a ∈ st.ibconns then st
    else if a ∈ st.obconns then st
    else
      match DialPeer dialOk st a with
      | (st2, true) => st2
      | (st2, false) => persistLoop dialOk a triesLeft st2

/-- PersistPeer: the retry loop with 10 tries. -/
def PersistPeer (dialOk : String → Bool) (st : SwarmState) (a : String) : SwarmState :=
  persistLoop dialOk a 10 st

/-- addPeers: for each resolved peer address in list order, skip our own
address, skip addresses with an existing outbound connection, and otherwise
run PersistPeer; unresolvable entries (none) are only logged. -/
def addPeers (dialOk : String → Bool) (selfAddr : String) :
    SwarmState → List (Option String) → SwarmState
  | st, [] => st
  | st, p :: ps =>
    let st2 : SwarmState :=
      match p with
      | some a =>
        if a = selfAddr then st
        else if a ∈ st.obconns then st
        else PersistPeer dialOk st a
      | none => st
    addPeers dialOk selfAddr st2 ps

/-! ## Shared concrete fixtures for witnesses -/

/-- A 2-piece single-file manifest: piece length 4, total size 7. -/
def tf6 : TorrentFile :=
  { Info :=
      { PieceLength := 4, Pieces := List.replicate 40 0, Path := "f",
        Files := [], Private := none, Length := 7, Sum := [], MetaVersion := none }
    Announce := "", AnnounceList := [], Created := 0,
    Comment := [], CreatedBy := [], Encoding := [] }

/-- A manifest carrying meta version 1. -/
def tfMetaV1 : TorrentFile :=
  { tf6 with Info := { tf6.Info with MetaVersion := some 1 } }

/-- Fixture for C5: piece length 2, two pieces, 4 content bytes on disk;
the manifest hash of piece 0 matches the toy hash of its bytes, the hash of
piece 1 does not. -/
def tf5 : TorrentFile :=
  { Info :=
      { PieceLength := 2, Pieces := List.replicate 20 3 ++ List.replicate 20 9,
        Path := "g", Files := [], Private := none, Length := 4, Sum := [],
        MetaVersion := none }
    Announce := "", AnnounceList := [], Created := 0,
    Comment := [], CreatedBy := [], Encoding := [] }

/-- Toy hash for the C5 fixture: 20 copies of the byte sum. -/
def sha1W : List Nat → List Nat := fun d => List.replicate 20 d.sum

/-- Whether piece i exists on disk (its bytes read back without error) and
its recomputed hash matches the manifest; the condition verifyBitfield sets
a bit under, named for use in theorem statements. -/
def pieceOnDiskOk (sha1 : List Nat → List Nat) (files : FsFiles)
    (tf : TorrentFile) (i : Nat) : Bool :=
  match VisitPiece files tf { Index := i, Begin := 0, Length := tf.LengthOfPiece i } with
  | some pc => checkPiece sha1 tf pc
  | none => false

/-! ## Helper lemmas -/

theorem getUint32_putUint32 (x : Nat) (rest : List Nat) :
    getUint32 (putUint32 x ++ rest) = x % pow32 := by
  simp [getUint32, putUint32, pow32, List.getD]
  omega

theorem putUint32_length (x : Nat) : (putUint32 x).length = 4 := rfl

theorem getUint32_putUint32_self (x : Nat) : getUint32 (putUint32 x) = x % pow32 := by
  simp [getUint32, putUint32, pow32, List.getD]
  omega

theorem MessageID_new (id : Nat) (body : List Nat) :
    MessageID (NewWireMessage id body) = id := by
  simp [MessageID, NewWireMessage, putUint32, List.getD]

theorem Payload_new (id : Nat) (body : List Nat) (h : body.length + 1 < pow32) :
    Payload (NewWireMessage id body) = body := by
  unfold Payload wireLen NewWireMessage
  rw [getUint32_putUint32, Nat.mod_eq_of_lt h, if_pos (by omega)]
  simp [putUint32]

theorem Bitfield.has_set_self (bf : Bitfield) (i : Nat) (h : i < bf.bits.length) :
    (bf.Set i).Has i = true := by
  simp [Bitfield.Set, Bitfield.Has, List.getD, List.getElem?_set_self h]

theorem Bitfield.has_set_ne (bf : Bitfield) (i j : Nat) (h : i ≠ j) :
    (bf.Set i).Has j = bf.Has j := by
  simp [Bitfield.Set, Bitfield.Has, List.getD, List.getElem?_set_ne h]

theorem Bitfield.set_length (bf : Bitfield) (i : Nat) :
    (bf.Set i).bits.length = bf.bits.length := by
  simp [Bitfield.Set]

/-! ## Claim theorems -/

/-- C1: the wire reader, evaluated on concrete frames, shows the source's
branches are inverted: an in-range frame (L = 2, a one-byte-id message) is
drained without being dispatched to the handler, and an oversize frame
(L = 10 MiB) makes the reader slice its fixed 32 KiB + 4 buffer out of range
(a panic) instead of draining L bytes and continuing. -/
theorem C1_wire_reader_branches_inverted :
    (ReadWireMessages [0, 0, 0, 2, 1, 0]).1 = [] ∧
    ReadWireMessages (putUint32 10485760) = ([], ReadEnd.sliceOutOfRange) := by
  decide

/-- C8 counterexample: a PieceData with empty data does not survive the
round trip; GetPieceData requires a payload of strictly more than 8 bytes,
so the serialised message parses back to the zero value. -/
theorem C8_counterexample :
    GetPieceData (PieceData.ToWireMessage ⟨1, 2, []⟩) ≠ (⟨1, 2, []⟩ : PieceData) := by
  decide

/-- C8 (amended): parse after serialize is the identity for every
PieceRequest, and for every PieceData whose data is non-empty (and small
enough that the uint32 length prefix does not wrap): index, begin and data
bytes all come back unchanged. -/
theorem C8_parse_after_serialize (req : PieceRequest) (p : PieceData)
    (hri : req.Index < pow32) (hrb : req.Begin < pow32) (hrl : req.Length < pow32)
    (hpi : p.Index < pow32) (hpb : p.Begin < pow32)
    (hd : p.Data ≠ []) (hdl : p.Data.length + 9 < pow32) :
    GetPieceRequest req.ToWireMessage = req ∧
    GetPieceData p.ToWireMessage = p := by
  constructor
  · obtain ⟨I, B, L⟩ := req
    simp only at hri hrb hrl
    have hblen : (putUint32 I ++ putUint32 B ++ putUint32 L).length = 12 := by
      simp [putUint32]
    have hb : (putUint32 I ++ putUint32 B ++ putUint32 L).length + 1 < pow32 := by
      rw [hblen]; norm_num [pow32]
    unfold PieceRequest.ToWireMessage
    simp only [GetPieceRequest, MessageID_new, Payload_new _ _ hb, hblen,
      if_pos rfl, if_true]
    simp only [PieceRequest.mk.injEq]
    refine ⟨?_, ?_, ?_⟩
    · rw [List.append_assoc, getUint32_putUint32, Nat.mod_eq_of_lt hri]
    · have hdrop : (putUint32 I ++ putUint32 B ++ putUint32 L).drop 4
          = putUint32 B ++ putUint32 L := by
        simp [putUint32]
      rw [hdrop, getUint32_putUint32, Nat.mod_eq_of_lt hrb]
    · have hdrop : (putUint32 I ++ putUint32 B ++ putUint32 L).drop 8 = putUint32 L := by
        simp [putUint32]
      rw [hdrop, getUint32_putUint32_self, Nat.mod_eq_of_lt hrl]
  · obtain ⟨I, B, D⟩ := p
    simp only at hpi hpb hd hdl
    have hd0 : 0 < D.length := List.length_pos.mpr hd
    have hblen : (putUint32 I ++ putUint32 B ++ D).length = 8 + D.length := by
      simp [putUint32]
      omega
    have hb : (putUint32 I ++ putUint32 B ++ D).length + 1 < pow32 := by
      rw [hblen]; omega
    have h8 : 8 < (putUint32 I ++ putUint32 B ++ D).length := by
      rw [hblen]; omega
    unfold PieceData.ToWireMessage
    simp only [GetPieceData, MessageID_new, Payload_new _ _ hb, if_pos h8,
      if_pos rfl, if_true]
    simp only [PieceData.mk.injEq]
    refine ⟨?_, ?_, ?_⟩
    · rw [List.append_assoc, getUint32_putUint32, Nat.mod_eq_of_lt hpi]
    · have hdrop : (putUint32 I ++ putUint32 B ++ D).drop 4 = putUint32 B ++ D := by
        simp [putUint32]
      rw [hdrop, getUint32_putUint32, Nat.mod_eq_of_lt hpb]
    · simp [putUint32]

/-- C8 witness: a concrete request and a concrete one-byte piece both round
trip. -/
theorem C8_witness :
    GetPieceRequest (PieceRequest.ToWireMessage ⟨3, 5, 7⟩) = (⟨3, 5, 7⟩ : PieceRequest) ∧
    GetPieceData (PieceData.ToWireMessage ⟨3, 5, [9]⟩) = (⟨3, 5, [9]⟩ : PieceData) :=
  C8_parse_after_serialize ⟨3, 5, 7⟩ ⟨3, 5, [9]⟩ (by decide) (by decide) (by decide)
    (by decide) (by decide) (by decide) (by decide)

/-- C9: every manifest whose info section carries a meta version field (any
value, including 1) gets the zero-valued v2 infohash from the stubbed
InfohashV2, and only manifests with no meta version field at all get the v1
SHA-1 infohash. -/
theorem C9_infohash_v2_stub (sha1bencode : Info → List Nat) (tf : TorrentFile) :
    (∀ v, tf.Info.MetaVersion = some v →
      tf.Infohash sha1bencode = Infohash.v2 (List.replicate 32 0)) ∧
    (tf.Info.MetaVersion = none →
      tf.Infohash sha1bencode = Infohash.v1 (sha1bencode tf.Info)) := by
  constructor
  · intro v h
    simp [TorrentFile.Infohash, Info.IsV1Only, h, TorrentFile.InfohashV2]
  · intro h
    simp [TorrentFile.Infohash, Info.IsV1Only, h, TorrentFile.InfohashV1]

/-- C9 witness: the concrete meta-version-1 manifest gets the zero v2
infohash. -/
theorem C9_witness :
    tfMetaV1.Infohash (fun _ => []) = Infohash.v2 (List.replicate 32 0) :=
  (C9_infohash_v2_stub (fun _ => []) tfMetaV1).1 1 rfl

/-- C6: on a manifest with N ≥ 1 pieces whose total content length lies in
the last-piece-valid window ((N-1)·piece_length, N·piece_length],
LengthOfPiece is the piece length for every piece but the last, and the last
piece gets total - (N-1)·piece_length, which is positive and at most the
piece length. -/
theorem C6_length_of_piece (tf : TorrentFile) (N : Nat)
    (hN : tf.Info.NumPieces = N) (hN1 : 1 ≤ N)
    (hPL32 : tf.Info.PieceLength < pow32)
    (hlo : (N - 1) * tf.Info.PieceLength < tf.TotalSize)
    (hhi : tf.TotalSize ≤ N * tf.Info.PieceLength) :
    (∀ i, i + 1 < N → tf.LengthOfPiece i = tf.Info.PieceLength) ∧
    tf.LengthOfPiece (N - 1) = tf.TotalSize - (N - 1) * tf.Info.PieceLength ∧
    0 < tf.TotalSize - (N - 1) * tf.Info.PieceLength ∧
    tf.TotalSize - (N - 1) * tf.Info.PieceLength ≤ tf.Info.PieceLength := by
  have hNlt : N < pow32 := hN ▸ Nat.mod_lt _ (by norm_num [pow32])
  have hMul : N * tf.Info.PieceLength < pow64 := by
    have h1 : N * tf.Info.PieceLength ≤ (pow32 - 1) * (pow32 - 1) :=
      Nat.mul_le_mul (by omega) (by omega)
    have h2 : (pow32 - 1) * (pow32 - 1) < pow64 := by norm_num [pow32, pow64]
    omega
  have hMk : N * tf.Info.PieceLength
      = (N - 1) * tf.Info.PieceLength + tf.Info.PieceLength := by
    cases N with
    | zero => omega
    | succ m => simp [Nat.succ_mul]
  refine ⟨?_, ?_, by omega, by omega⟩
  · intro i hi
    simp only [TorrentFile.LengthOfPiece]
    have h1 : (i + 1) % pow32 = i + 1 := Nat.mod_eq_of_lt (by omega)
    rw [hN, h1, if_neg (by omega)]
  · simp only [TorrentFile.LengthOfPiece]
    have h1 : N - 1 + 1 = N := by omega
    rw [hN, h1, Nat.mod_eq_of_lt hNlt, if_pos rfl]
    unfold usub64
    generalize hk : (N - 1) * tf.Info.PieceLength = k at *
    generalize hM : N * tf.Info.PieceLength = M at *
    simp only [pow32, pow64] at *
    omega

/-- C6 witness: on the 2-piece fixture (piece length 4, total 7) the first
piece has length 4 and the last has length 3. -/
theorem C6_witness :
    tf6.LengthOfPiece 0 = tf6.Info.PieceLength ∧
    tf6.LengthOfPiece (2 - 1) = tf6.TotalSize - (2 - 1) * tf6.Info.PieceLength :=
  ⟨(C6_length_of_piece tf6 2 (by decide) (by decide) (by decide) (by decide)
      (by decide)).1 0 (by decide),
   (C6_length_of_piece tf6 2 (by decide) (by decide) (by decide) (by decide)
      (by decide)).2.1⟩

/-- C10: DownloadRemaining subtracts CountSet · PieceLength from TotalSize
with wrapping uint64 arithmetic; whenever the subtrahend exceeds the total
(for example all bits set with a short last piece) the result wraps modulo
2^64 and in particular is not 0. -/
theorem C10_download_remaining_wraps (bf : Bitfield) (tf : TorrentFile)
    (h1 : tf.TotalSize < bf.CountSet * tf.Info.PieceLength)
    (h2 : bf.CountSet * tf.Info.PieceLength < pow64) :
    DownloadRemaining bf tf =
      pow64 - (bf.CountSet * tf.Info.PieceLength - tf.TotalSize) ∧
    DownloadRemaining bf tf ≠ 0 := by
  have hq : 0 < tf.Info.PieceLength := by
    rcases Nat.eq_zero_or_pos tf.Info.PieceLength with h | h
    · rw [h, Nat.mul_zero] at h1; omega
    · exact h
  have hc : 0 < bf.CountSet := by
    rcases Nat.eq_zero_or_pos bf.CountSet with h | h
    · rw [h, Nat.zero_mul] at h1; omega
    · exact h
  have hclt : bf.CountSet < pow64 :=
    lt_of_le_of_lt (Nat.le_mul_of_pos_right _ hq) h2
  have hqlt : tf.Info.PieceLength < pow64 :=
    lt_of_le_of_lt (Nat.le_mul_of_pos_left _ hc) h2
  have hslt : tf.TotalSize < pow64 := lt_trans h1 h2
  simp only [DownloadRemaining, usub64, Nat.mod_eq_of_lt hclt,
    Nat.mod_eq_of_lt hqlt, Nat.mod_eq_of_lt h2, Nat.mod_eq_of_lt hslt]
  generalize hM : bf.CountSet * tf.Info.PieceLength = M at *
  simp only [pow64] at *
  omega

theorem Info.checkPiece_index_lt (sha1 : List Nat → List Nat) (i : Info)
    (p : PieceData) (h : i.CheckPiece sha1 p = true) : p.Index < i.NumPieces := by
  simp only [Info.CheckPiece] at h
  split at h
  · omega
  · exact absurd h (by simp)

/-- C2: PutPiece succeeds exactly when the piece hash-checks against the
manifest and the content write succeeds; on success the piece's bit is set
in the bitfield, and on any failure (hash mismatch or write error) the
bitfield is returned unchanged. -/
theorem C2_put_piece (writeRes : FsFiles → List Nat → Nat → Option FsFiles)
    (sha1 : List Nat → List Nat) (files : FsFiles) (tf : TorrentFile)
    (bf : Bitfield) (pc : PieceData)
    (hlen : tf.Info.NumPieces ≤ bf.bits.length) :
    ((PutPiece writeRes sha1 files tf bf pc).2.2 = true ↔
      (tf.Info.CheckPiece sha1 pc = true ∧
        (writeRes files pc.Data (tf.Info.PieceLength * pc.Index)).isSome = true)) ∧
    ((PutPiece writeRes sha1 files tf bf pc).2.2 = true →
      (PutPiece writeRes sha1 files tf bf pc).2.1.Has pc.Index = true) ∧
    ((PutPiece writeRes sha1 files tf bf pc).2.2 = false →
      (PutPiece writeRes sha1 files tf bf pc).2.1 = bf) := by
  unfold PutPiece checkPiece
  by_cases hc : tf.Info.CheckPiece sha1 pc = true
  · rw [if_pos hc]
    cases hw : writeRes files pc.Data (tf.Info.PieceLength * pc.Index) with
    | some fs2 =>
      have hidx : pc.Index < tf.Info.NumPieces := Info.checkPiece_index_lt sha1 _ _ hc
      refine ⟨?_, ?_, ?_⟩
      · simp [hc]
      · intro _
        simpa using Bitfield.has_set_self bf pc.Index (by omega)
      · intro h
        simp at h
    | none => simp [hc, hw]
  · rw [if_neg hc]
    simp [hc]

/-- C2 witness: a concrete hash-matching piece written through a succeeding
write leaves its bit set. -/
theorem C2_witness :
    (PutPiece (fun f p o => some (WriteAt f p o)) (fun _ => List.replicate 20 0)
      [[0, 0, 0, 0, 0, 0, 0]] tf6 (NewBitfield 2) ⟨1, 0, [5, 6, 7]⟩).2.1.Has 1 = true :=
  (C2_put_piece (fun f p o => some (WriteAt f p o)) (fun _ => List.replicate 20 0)
    [[0, 0, 0, 0, 0, 0, 0]] tf6 (NewBitfield 2) ⟨1, 0, [5, 6, 7]⟩ (by decide)).2.1
    (by decide)

theorem NewBitfield_has (n i : Nat) : (NewBitfield n).Has i = false := by
  simp only [NewBitfield, Bitfield.Has]
  induction n generalizing i with
  | zero => cases i <;> rfl
  | succ m ih =>
    cases i with
    | zero => rfl
    | succ j => exact ih j

theorem foldl_set_has (cond : Nat → Bool) (g : Bitfield → Nat → Bitfield)
    (hg : ∀ has x, g has x = if cond x then has.Set x else has)
    (l : List Nat) (acc : Bitfield) (i : Nat) (hi : i < acc.bits.length) :
    (l.foldl g acc).Has i = (acc.Has i || (l.contains i && cond i)) := by
  induction l generalizing acc with
  | nil => simp
  | cons x xs ih =>
    simp only [List.foldl_cons, hg]
    by_cases hx : cond x = true
    · rw [if_pos hx]
      have hlen2 : i < (acc.Set x).bits.length := by
        rw [Bitfield.set_length]; exact hi
      rw [ih _ hlen2]
      by_cases hxi : x = i
      · subst hxi
        rw [Bitfield.has_set_self _ _ hi]
        simp [hx]
      · rw [Bitfield.has_set_ne _ _ _ hxi]
        have hix : i ≠ x := fun h => hxi h.symm
        simp [hix]
    · rw [if_neg hx]
      rw [ih _ hi]
      have hx0 : cond x = false := by
        cases h : cond x
        · rfl
        · exact absurd h hx
      by_cases hxi : x = i
      · subst hxi
        simp [List.contains_cons, hx0]
      · have hix : i ≠ x := fun h => hxi h.symm
        simp [hix]

/-- C5: after VerifyAll with fresh = false and a stored bitfield, bit i of
the resulting bitfield is set exactly when the stored bitfield had it set
and the on-disk bytes of piece i hash-check against the manifest; failing
pieces are cleared, unclaimed pieces are never added. -/
theorem C5_verify_all (sha1 : List Nat → List Nat) (files : FsFiles)
    (tf : TorrentFile) (check : Bitfield) (i : Nat)
    (hi : i < tf.Info.NumPieces) :
    (VerifyAll sha1 files tf (some check) false).Has i =
      (check.Has i && pieceOnDiskOk sha1 files tf i) := by
  unfold VerifyAll verifyBitfield
  rw [foldl_set_has (fun idx => check.Has idx && pieceOnDiskOk sha1 files tf idx)]
  · rw [NewBitfield_has]
    have hcont : (List.range tf.Info.NumPieces).contains i = true := by
      simp [List.mem_range]
      omega
    rw [hcont]
    simp
  · intro has x
    by_cases hhas : check.Has x = true
    · rw [if_pos hhas]
      unfold pieceOnDiskOk
      cases hv : VisitPiece files tf { Index := x, Begin := 0, Length := tf.LengthOfPiece x } with
      | some pc =>
        by_cases hcp : checkPiece sha1 tf pc = true
        · simp [hhas, hv, hcp]
        · simp [hhas, hv, hcp]
      | none => simp [hhas, hv]
    · have hhas0 : check.Has x = false := by
        cases h : check.Has x
        · rfl
        · exact absurd h hhas
      simp [hhas0]
  · simp [NewBitfield]
    omega

/-- C5 witness: on the fixture with both bits claimed, the matching piece 0
stays set and the mismatching piece 1 is cleared. -/
theorem C5_witness :
    (VerifyAll sha1W [[1, 2, 3, 4]] tf5 (some ⟨[true, true]⟩) false).Has 0 =
      (Bitfield.Has ⟨[true, true]⟩ 0 && pieceOnDiskOk sha1W [[1, 2, 3, 4]] tf5 0) ∧
    (VerifyAll sha1W [[1, 2, 3, 4]] tf5 (some ⟨[true, true]⟩) false).Has 1 =
      (Bitfield.Has ⟨[true, true]⟩ 1 && pieceOnDiskOk sha1W [[1, 2, 3, 4]] tf5 1) :=
  ⟨C5_verify_all sha1W [[1, 2, 3, 4]] tf5 ⟨[true, true]⟩ 0 (by decide),
   C5_verify_all sha1W [[1, 2, 3, 4]] tf5 ⟨[true, true]⟩ 1 (by decide)⟩

/-- C10 witness: with both bits of the 2-piece fixture set (count 2, piece
length 4, total 7) the subtrahend is 8 > 7 and the result wraps. -/
theorem C10_witness :
    DownloadRemaining ⟨[true, true]⟩ tf6 =
      pow64 - (Bitfield.CountSet ⟨[true, true]⟩ * tf6.Info.PieceLength - tf6.TotalSize) ∧
    DownloadRemaining ⟨[true, true]⟩ tf6 ≠ 0 :=
  C10_download_remaining_wraps ⟨[true, true]⟩ tf6 (by decide) (by decide)

theorem DialPeer_fst_ibconns (dialOk : String → Bool) (st : SwarmState) (a : String) :
    (DialPeer dialOk st a).1.ibconns = st.ibconns := by
  unfold DialPeer
  split
  · rfl
  · split <;> rfl

theorem DialPeer_count_ne (dialOk : String → Bool) (st : SwarmState) (a x : String)
    (hx : x ≠ a) : (DialPeer dialOk st a).1.dials.count x = st.dials.count x := by
  unfold DialPeer
  split
  · rfl
  · split <;> simp [List.count_append, hx]

theorem DialPeer_ob_mono (dialOk : String → Bool) (st : SwarmState) (a x : String)
    (h : x ∈ st.obconns) : x ∈ (DialPeer dialOk st a).1.obconns := by
  unfold DialPeer
  split
  · exact h
  · split
    · simp [h]
    · exact h

theorem DialPeer_ob_new (dialOk : String → Bool) (st : SwarmState) (a x : String)
    (h : x ∈ (DialPeer dialOk st a).1.obconns) : x ∈ st.obconns ∨ x = a := by
  unfold DialPeer at h
  split at h
  · exact Or.inl h
  · split at h
    · simp only [List.mem_append, List.mem_singleton] at h
      exact h
    · exact Or.inl h

theorem persistLoop_ibconns (dialOk : String → Bool) (a : String) (fuel : Nat) :
    ∀ st : SwarmState, (persistLoop dialOk a fuel st).ibconns = st.ibconns := by
  induction fuel with
  | zero => intro st; rfl
  | succ n ih =>
    intro st
    unfold persistLoop
    split
    · rfl
    · split
      · rfl
      · cases hd : DialPeer dialOk st a with
        | mk st2 ok =>
          have hib : st2.ibconns = st.ibconns := by
            have h := DialPeer_fst_ibconns dialOk st a
            rw [hd] at h
            exact h
          cases ok
          · simpa [ih st2] using hib
          · simpa using hib

theorem persistLoop_count_ne (dialOk : String → Bool) (a : String) (fuel : Nat) :
    ∀ (st : SwarmState) (x : String), x ≠ a →
      (persistLoop dialOk a fuel st).dials.count x = st.dials.count x := by
  induction fuel with
  | zero => intro st x _; rfl
  | succ n ih =>
    intro st x hx
    unfold persistLoop
    split
    · rfl
    · split
      · rfl
      · cases hd : DialPeer dialOk st a with
        | mk st2 ok =>
          have hcnt : st2.dials.count x = st.dials.count x := by
            have h := DialPeer_count_ne dialOk st a x hx
            rw [hd] at h
            exact h
          cases ok
          · simpa [ih st2 x hx] using hcnt
          · simpa using hcnt

theorem persistLoop_ob_mono (dialOk : String → Bool) (a : String) (fuel : Nat) :
    ∀ (st : SwarmState) (x : String), x ∈ st.obconns →
      x ∈ (persistLoop dialOk a fuel st).obconns := by
  induction fuel with
  | zero => intro st x h; exact h
  | succ n ih =>
    intro st x h
    unfold persistLoop
    split
    · exact h
    · split
      · exact h
      · cases hd : DialPeer dialOk st a with
        | mk st2 ok =>
          have hmono : x ∈ st2.obconns := by
            have h2 := DialPeer_ob_mono dialOk st a x h
            rw [hd] at h2
            exact h2
          cases ok
          · simpa using ih st2 x hmono
          · simpa using hmono

theorem persistLoop_ob_new (dialOk : String → Bool) (a : String) (fuel : Nat) :
    ∀ (st : SwarmState) (x : String), x ∈ (persistLoop dialOk a fuel st).obconns →
      x ∈ st.obconns ∨ x = a := by
  induction fuel with
  | zero => intro st x h; exact Or.inl h
  | succ n ih =>
    intro st x h
    unfold persistLoop at h
    split at h
    · exact Or.inl h
    · split at h
      · exact Or.inl h
      · cases hd : DialPeer dialOk st a with
        | mk st2 ok =>
          rw [hd] at h
          have hnew : x ∈ st2.obconns → x ∈ st.obconns ∨ x = a := by
            intro h2
            have h3 := DialPeer_ob_new dialOk st a x
            rw [hd] at h3
            exact h3 h2
          cases ok
          · simp only at h
            rcases ih st2 x h with h4 | h4
            · exact hnew h4
            · exact Or.inr h4
          · exact hnew h

theorem persistLoop_of_ib (dialOk : String → Bool) (a : String) (fuel : Nat)
    (st : SwarmState) (h : a ∈ st.ibconns) :
    persistLoop dialOk a (fuel + 1) st = st := by
  unfold persistLoop
  rw [if_pos h]

theorem persistLoop_success (dialOk : String → Bool) (a : String) (fuel : Nat)
    (st : SwarmState) (hib : a ∉ st.ibconns) (hob : a ∉ st.obconns)
    (hok : dialOk a = true) :
    persistLoop dialOk a (fuel + 1) st =
      { st with obconns := st.obconns ++ [a], dials := st.dials ++ [a] } := by
  unfold persistLoop
  rw [if_neg hib, if_neg hob]
  unfold DialPeer
  rw [if_neg hob, if_pos hok]

theorem addPeers_count_self (dialOk : String → Bool) (selfAddr : String) :
    ∀ (peers : List (Option String)) (st : SwarmState),
      (addPeers dialOk selfAddr st peers).dials.count selfAddr =
        st.dials.count selfAddr := by
  intro peers
  induction peers with
  | nil => intro st; rfl
  | cons p ps ih =>
    intro st
    cases p with
    | none => exact ih st
    | some b =>
      by_cases hb : b = selfAddr
      · simp only [addPeers, hb, if_pos rfl]
        exact ih st
      · simp only [addPeers, if_neg hb]
        by_cases hob : b ∈ st.obconns
        · rw [if_pos hob]
          exact ih st
        · rw [if_neg hob]
          rw [ih (PersistPeer dialOk st b)]
          exact persistLoop_count_ne dialOk b 10 st selfAddr (fun h => hb h.symm)

theorem addPeers_count_of_ib (dialOk : String → Bool) (selfAddr : String) :
    ∀ (peers : List (Option String)) (st : SwarmState) (a : String),
      a ∈ st.ibconns →
      (addPeers dialOk selfAddr st peers).dials.count a = st.dials.count a := by
  intro peers
  induction peers with
  | nil => intro st a _; rfl
  | cons p ps ih =>
    intro st a hib
    cases p with
    | none => exact ih st a hib
    | some b =>
      by_cases hb : b = selfAddr
      · simp only [addPeers, hb, if_pos rfl]
        exact ih st a hib
      · simp only [addPeers, if_neg hb]
        by_cases hob : b ∈ st.obconns
        · rw [if_pos hob]
          exact ih st a hib
        · rw [if_neg hob]
          by_cases hba : b = a
          · subst hba
            unfold PersistPeer
            rw [persistLoop_of_ib dialOk b 9 st hib]
            exact ih st b hib
          · have h1 := ih (PersistPeer dialOk st b) a
            have h2 : a ∈ (PersistPeer dialOk st b).ibconns := by
              unfold PersistPeer
              rw [persistLoop_ibconns]
              exact hib
            rw [h1 h2]
            exact persistLoop_count_ne dialOk b 10 st a (fun h => hba h.symm)

theorem addPeers_count_of_ob (dialOk : String → Bool) (selfAddr : String) :
    ∀ (peers : List (Option String)) (st : SwarmState) (a : String),
      a ∈ st.obconns →
      (addPeers dialOk selfAddr st peers).dials.count a = st.dials.count a := by
  intro peers
  induction peers with
  | nil => intro st a _; rfl
  | cons p ps ih =>
    intro st a hob
    cases p with
    | none => exact ih st a hob
    | some b =>
      by_cases hb : b = selfAddr
      · simp only [addPeers, hb, if_pos rfl]
        exact ih st a hob
      · simp only [addPeers, if_neg hb]
        by_cases hbo : b ∈ st.obconns
        · rw [if_pos hbo]
          exact ih st a hob
        · rw [if_neg hbo]
          have hba : b ≠ a := fun h => hbo (h ▸ hob)
          have h2 : a ∈ (PersistPeer dialOk st b).obconns := by
            unfold PersistPeer
            exact persistLoop_ob_mono dialOk b 10 st a hob
          rw [ih (PersistPeer dialOk st b) a h2]
          exact persistLoop_count_ne dialOk b 10 st a (fun h => hba h.symm)

theorem addPeers_count_new (dialOk : String → Bool) (selfAddr : String) :
    ∀ (peers : List (Option String)) (st : SwarmState) (a : String),
      a ∉ st.ibconns → a ∉ st.obconns → a ≠ selfAddr → dialOk a = true →
      some a ∈ peers →
      (addPeers dialOk selfAddr st peers).dials.count a = st.dials.count a + 1 := by
  intro peers
  induction peers with
  | nil => intro st a _ _ _ _ hmem; exact absurd hmem (List.not_mem_nil _)
  | cons p ps ih =>
    intro st a hib hob hself hok hmem
    cases p with
    | none =>
      have hmem2 : some a ∈ ps := by
        rcases List.mem_cons.mp hmem with h | h
        · exact absurd h (by simp)
        · exact h
      exact ih st a hib hob hself hok hmem2
    | some b =>
      by_cases hba : b = a
      · subst hba
        simp only [addPeers, if_neg hself]
        rw [if_neg hob]
        unfold PersistPeer
        rw [persistLoop_success dialOk b 9 st hib hob hok]
        rw [addPeers_count_of_ob dialOk selfAddr ps _ b (by simp)]
        simp [List.count_append]
      · have hmem2 : some a ∈ ps := by
          rcases List.mem_cons.mp hmem with h | h
          · exact absurd h.symm (by simp [hba])
          · exact h
        by_cases hb : b = selfAddr
        · simp only [addPeers, hb, if_pos rfl]
          exact ih st a hib hob hself hok hmem2
        · simp only [addPeers, if_neg hb]
          by_cases hbo : b ∈ st.obconns
          · rw [if_pos hbo]
            exact ih st a hib hob hself hok hmem2
          · rw [if_neg hbo]
            have hib2 : a ∉ (PersistPeer dialOk st b).ibconns := by
              unfold PersistPeer
              rw [persistLoop_ibconns]
              exact hib
            have hob2 : a ∉ (PersistPeer dialOk st b).obconns := by
              intro h
              rcases persistLoop_ob_new dialOk b 10 st a h with h2 | h2
              · exact hob h2
              · exact hba h2.symm
            rw [ih (PersistPeer dialOk st b) a hib2 hob2 hself hok hmem2]
            unfold PersistPeer
            rw [persistLoop_count_ne dialOk b 10 st a (fun h => hba h.symm)]

/-- C7: in the sequential model of tracker peer-list processing, addPeers
never attempts a dial to the process's own address; attempts no dial to any
address that already has an inbound or outbound connection entry; and for a
fresh, dialable, non-self destination appearing one or more times in the
list (in particular twice) exactly one outbound dial is attempted. -/
theorem C7_add_peers (dialOk : String → Bool) (selfAddr : String)
    (st : SwarmState) (peers : List (Option String)) :
    ((addPeers dialOk selfAddr st peers).dials.count selfAddr =
      st.dials.count selfAddr) ∧
    (∀ a, a ∈ st.ibconns ∨ a ∈ st.obconns →
      (addPeers dialOk selfAddr st peers).dials.count a = st.dials.count a) ∧
    (∀ a, a ∉ st.ibconns → a ∉ st.obconns → a ≠ selfAddr → dialOk a = true →
      some a ∈ peers →
      (addPeers dialOk selfAddr st peers).dials.count a = st.dials.count a + 1) := by
  refine ⟨addPeers_count_self dialOk selfAddr peers st, ?_, ?_⟩
  · intro a h
    rcases h with h | h
    · exact addPeers_count_of_ib dialOk selfAddr peers st a h
    · exact addPeers_count_of_ob dialOk selfAddr peers st a h
  · intro a h1 h2 h3 h4 h5
    exact addPeers_count_new dialOk selfAddr peers st a h1 h2 h3 h4 h5

/-- C7 witness: from an empty state, a peer list naming our own address once
and a fresh peer twice leads to zero dials to ourselves and exactly one dial
to the peer. -/
theorem C7_witness :
    ((addPeers (fun _ => true) "me" ⟨[], [], []⟩
        [some "me", some "p", some "p"]).dials.count "me" =
      (SwarmState.mk [] [] []).dials.count "me") ∧
    ((addPeers (fun _ => true) "me" ⟨[], [], []⟩
        [some "me", some "p", some "p"]).dials.count "p" =
      (SwarmState.mk [] [] []).dials.count "p" + 1) :=
  ⟨(C7_add_peers (fun _ => true) "me" ⟨[], [], []⟩ [some "me", some "p", some "p"]).1,
   (C7_add_peers (fun _ => true) "me" ⟨[], [], []⟩ [some "me", some "p", some "p"]).2.2
     "p" (by simp) (by simp) (by simp) rfl (by simp)⟩

theorem foldl_rarest_aux (cond : Nat → Bool) (cnt : Nat → Nat)
    (g : Option Nat → Nat → Option Nat)
    (hg : ∀ acc i, g acc i =
      if cond i then
        (match acc with
         | none => some i
         | some j => if cnt i < cnt j then some i else some j)
      else acc) :
    ∀ n : Nat,
      ((List.range n).foldl g none = none → ∀ m, m < n → cond m = false) ∧
      (∀ j, (List.range n).foldl g none = some j →
        cond j = true ∧ j < n ∧
        ∀ m, m < n → cond m = true →
          cnt j ≤ cnt m ∧ (cnt m = cnt j → j ≤ m)) := by
  intro n
  induction n with
  | zero =>
    refine ⟨fun _ m hm => absurd hm (by omega), fun j h => ?_⟩
    simp at h
  | succ n ih =>
    rw [List.range_succ, List.foldl_append, List.foldl_cons, List.foldl_nil, hg]
    by_cases hc : cond n = true
    · rw [if_pos hc]
      cases hr : (List.range n).foldl g none with
      | none =>
        dsimp only
        refine ⟨fun h => absurd h (by simp), fun k hk => ?_⟩
        have hkn : k = n := (Option.some_inj.mp hk).symm
        rw [hkn]
        refine ⟨hc, by omega, fun m hm hcm => ?_⟩
        rcases Nat.lt_or_ge m n with h | h
        · exact absurd hcm (by simp [(ih.1 hr) m h])
        · have hmn : m = n := by omega
          rw [hmn]
          exact ⟨le_refl _, fun _ => le_refl _⟩
      | some j =>
        dsimp only
        obtain ⟨hcj, hjn, hbest⟩ := ih.2 j hr
        by_cases hlt : cnt n < cnt j
        · rw [if_pos hlt]
          refine ⟨fun h => absurd h (by simp), fun k hk => ?_⟩
          have hkn : k = n := (Option.some_inj.mp hk).symm
          rw [hkn]
          refine ⟨hc, by omega, fun m hm hcm => ?_⟩
          rcases Nat.lt_or_ge m n with h | h
          · obtain ⟨h1, h2⟩ := hbest m h hcm
            exact ⟨by omega, fun he => by omega⟩
          · have hmn : m = n := by omega
            rw [hmn]
            exact ⟨le_refl _, fun _ => le_refl _⟩
        · rw [if_neg hlt]
          refine ⟨fun h => absurd h (by simp), fun k hk => ?_⟩
          have hkj : k = j := (Option.some_inj.mp hk).symm
          rw [hkj]
          refine ⟨hcj, by omega, fun m hm hcm => ?_⟩
          rcases Nat.lt_or_ge m n with h | h
          · exact hbest m h hcm
          · have hmn : m = n := by omega
            rw [hmn]
            exact ⟨by omega, fun _ => by omega⟩
    · rw [if_neg hc]
      have hc0 : cond n = false := by
        cases h : cond n
        · rfl
        · exact absurd h hc
      cases hr : (List.range n).foldl g none with
      | none =>
        refine ⟨fun _ m hm => ?_, fun j hj => by simp at hj⟩
        rcases Nat.lt_or_ge m n with h | h
        · exact (ih.1 hr) m h
        · have hmn : m = n := by omega
          rw [hmn]
          exact hc0
      | some j =>
        obtain ⟨hcj, hjn, hbest⟩ := ih.2 j hr
        refine ⟨fun h => by simp at h, fun k hk => ?_⟩
        have hkj : k = j := (Option.some_inj.mp hk).symm
        rw [hkj]
        refine ⟨hcj, by omega, fun m hm hcm => ?_⟩
        rcases Nat.lt_or_ge m n with h | h
        · exact hbest m h hcm
        · have hmn : m = n := by omega
          rw [hmn] at hcm
          exact absurd hcm (by simp [hc0])

theorem FindRarest_spec (remote : Bitfield) (peers : List Bitfield)
    (excl : Nat → Bool) :
    (remote.FindRarest peers excl = none →
      ∀ m, m < remote.bits.length → (remote.Has m && !excl m) = false) ∧
    (∀ j, remote.FindRarest peers excl = some j →
      (remote.Has j && !excl j) = true ∧ j < remote.bits.length ∧
      ∀ m, m < remote.bits.length → (remote.Has m && !excl m) = true →
        availCount peers j ≤ availCount peers m ∧
        (availCount peers m = availCount peers j → j ≤ m)) := by
  exact foldl_rarest_aux (fun i => remote.Has i && !excl i) (availCount peers)
    _ (fun acc i => rfl) remote.bits.length

/-- C4: every index getRarestPiece returns is set in the remote bitfield,
unset in the local bitfield, outside the exclude list, and of minimal
availability across the peer bitfields among all such candidates, with ties
broken by lowest index; and when it returns none, no candidate exists.
FindRarest itself is modelled from the spec (its source is not provided). -/
theorem C4_get_rarest_piece (localBf : Bitfield) (peers : List Bitfield)
    (remote : Bitfield) (exclude : List Nat) :
    (∀ i, getRarestPiece localBf peers remote exclude = some i →
      remote.Has i = true ∧ localBf.Has i = false ∧ exclude.contains i = false ∧
      i < remote.bits.length ∧
      ∀ j, j < remote.bits.length → remote.Has j = true → localBf.Has j = false →
        exclude.contains j = false →
        availCount peers i ≤ availCount peers j ∧
        (availCount peers j = availCount peers i → i ≤ j)) ∧
    (getRarestPiece localBf peers remote exclude = none →
      ∀ j, j < remote.bits.length →
        ¬(remote.Has j = true ∧ localBf.Has j = false ∧
          exclude.contains j = false)) := by
  have hspec := FindRarest_spec remote peers
    (fun idx => localBf.Has idx || exclude.contains idx)
  constructor
  · intro i hi
    obtain ⟨hcand, hlt, hbest⟩ := hspec.2 i hi
    simp only [Bool.and_eq_true, Bool.not_eq_true', Bool.or_eq_false_iff] at hcand
    refine ⟨hcand.1, hcand.2.1, hcand.2.2, hlt, fun j hj h1 h2 h3 => ?_⟩
    have h3m : j ∉ exclude := by simpa using h3
    exact hbest j hj (by simp [h1, h2, h3m])
  · intro hn j hj hcontra
    rcases hcontra with ⟨h1, h2, h3⟩
    have h := hspec.1 hn j hj
    have h3m : j ∉ exclude := by simpa using h3
    simp [h1, h2, h3m] at h

/-- C4 witness: with remote offering pieces 0, 1, 2, nothing local or
excluded, and peers making piece 0 common and pieces 1, 2 equally rare, the
choice is piece 1 (rarest, lowest index) and its count is at most that of
piece 0. -/
theorem C4_witness :
    availCount [Bitfield.mk [true, true, false], Bitfield.mk [true, false, true]] 1 ≤
      availCount [Bitfield.mk [true, true, false], Bitfield.mk [true, false, true]] 0 :=
  (((C4_get_rarest_piece ⟨[false, false, false]⟩
      [⟨[true, true, false]⟩, ⟨[true, false, true]⟩]
      ⟨[true, true, true]⟩ []).1 1 (by decide)).2.2.2.2 0 (by decide) (by decide)
      (by decide) (by decide)).1

theorem fileWriteAt_length (c p : List Nat) (off : Nat)
    (h : off + p.length ≤ c.length) :
    (fileWriteAt c p off).length = c.length := by
  simp [fileWriteAt]
  omega

theorem fileWriteAt_drop (c p : List Nat) (off : Nat)
    (h : off + p.length ≤ c.length) :
    (fileWriteAt c p off).drop off = p ++ c.drop (off + p.length) := by
  unfold fileWriteAt
  have hlen : (c.take off).length = off := by
    rw [List.length_take]
    omega
  rw [List.append_assoc, List.drop_left' hlen]

/-- C3: writing a buffer at a linear offset and reading the same number of
bytes back at the same offset returns exactly the written buffer with no
error, for any file layout whose total length covers the write (files
preallocated to declared length); covers single-file (one-element list) and
multi-file layouts. -/
theorem C3_read_after_write (files : FsFiles) (x : List Nat) (off : Nat)
    (hx : 0 < x.length) (hoff : off + x.length ≤ totalLen files) :
    ReadAt (WriteAt files x off) x.length off = (x, false) := by
  induction files generalizing x off with
  | nil =>
    exfalso
    have h0 : totalLen [] = 0 := rfl
    omega
  | cons c rest ih =>
    have htot : totalLen (c :: rest) = c.length + totalLen rest := by
      simp [totalLen]
    by_cases hskip : off ≥ c.length
    · simp only [WriteAt, if_pos hskip]
      simp only [ReadAt, if_neg (by omega : ¬ off < c.length)]
      exact ih x (off - c.length) hx (by omega)
    · push_neg at hskip
      simp only [WriteAt, if_neg (by omega : ¬ off ≥ c.length)]
      by_cases hfit : x.length ≤ c.length - off
      · have hn1 : min x.length (c.length - off) = x.length := min_eq_left hfit
        rw [hn1, List.take_length]
        rw [if_pos (by omega)]
        have hc2len : (fileWriteAt c x off).length = c.length :=
          fileWriteAt_length c x off (by omega)
        simp only [ReadAt, if_pos (show off < (fileWriteAt c x off).length by omega)]
        rw [hc2len, hn1]
        rw [if_pos (by omega)]
        have hbytes : readFileAt (fileWriteAt c x off) x.length off = x := by
          unfold readFileAt
          rw [hc2len, hn1]
          rw [fileWriteAt_drop c x off (by omega)]
          exact List.take_left' rfl
        rw [hbytes]
      · push_neg at hfit
        have hn1 : min x.length (c.length - off) = c.length - off :=
          min_eq_right (by omega)
        rw [hn1]
        rw [if_neg (by omega)]
        have htk : (x.take (c.length - off)).length = c.length - off := by
          rw [List.length_take]
          omega
        have hc2len : (fileWriteAt c (x.take (c.length - off)) off).length = c.length :=
          fileWriteAt_length c _ off (by omega)
        simp only [ReadAt,
          if_pos (show off < (fileWriteAt c (x.take (c.length - off)) off).length by omega)]
        rw [hc2len, hn1]
        rw [if_neg (by omega)]
        have hbytes : readFileAt (fileWriteAt c (x.take (c.length - off)) off)
            x.length off = x.take (c.length - off) := by
          unfold readFileAt
          rw [hc2len, hn1]
          rw [fileWriteAt_drop c _ off (by omega)]
          rw [htk]
          have : off + (c.length - off) = c.length := by omega
          rw [this, List.drop_length, List.append_nil]
          rw [List.take_take, Nat.min_self]
        rw [hbytes]
        have hrec := ih (x.drop (c.length - off)) 0 (by
          rw [List.length_drop]
          omega) (by
          rw [List.length_drop]
          omega)
        rw [List.length_drop] at hrec
        rw [hrec]
        rw [List.take_append_drop]

/-- C3 witness: a 3-byte buffer written at offset 1 across a 2-byte file and
a 3-byte file reads back unchanged. -/
theorem C3_witness :
    ReadAt (WriteAt [[0, 0], [0, 0, 0]] [9, 8, 7] 1) 3 1 = ([9, 8, 7], false) := by
  have h := C3_read_after_write [[0, 0], [0, 0, 0]] [9, 8, 7] 1 (by decide) (by decide)
  simpa using h

end XD
